import Mathlib

/-!
The tool compare-blocks: segment tracker, bundle reader and record comparator

A shallow embedding of `cmd/tools/compare/tools_compare_blocks.go`:

* `state`, `state.print`, `state.process` : the per-segment report accumulator;
* `readBundle` : the loop decoding one bundle file;
* `Compare` : the record comparator;
* `compareBundle` : the comparison loop of `runCompareBlocksE` over one bundle.

Go `int` / `uint64` counters and block numbers are natural numbers: no operation
of the embedded code can wrap on inputs that fit in memory.  A Go run-time panic
(index out of range, nil dereference) is the `none` result.
-/

namespace CompareBlocks

/-! ## Block ranges -/

/-- Modelled from the spec: `types.BlockRange` (package `types` is not among the
sources).  The spec's data model gives `Range : {start: uint64, stop: uint64 | unbounded}`
with the stop boundary exclusive. -/
structure BlockRange where
  Start : Nat
  Stop : Option Nat
  deriving DecidableEq, Repr

/-- Modelled from the spec: `BlockRange.Contains(blockNum, types.EndBoundaryExclusive)`,
membership in the half-open interval `[Start, Stop)`; an unbounded range contains
everything from `Start` on. -/
def BlockRange.Contains (r : BlockRange) (blockNum : Nat) : Bool :=
  match r.Stop with
  | none => decide (r.Start ≤ blockNum)
  | some e => decide (r.Start ≤ blockNum) && decide (blockNum < e)

/-- The constant `firecore.MaxUint64`. -/
def MaxUint64 : Nat := 2 ^ 64 - 1

/-- Modelled from the spec: `BlockRange.GetStopBlockOr(default)`, the stop block when the
range is bounded and the default otherwise. -/
def BlockRange.GetStopBlockOr (r : BlockRange) (dflt : Nat) : Nat :=
  match r.Stop with
  | none => dflt
  | some e => e

/-! ## Segment tracker -/

/-- The struct `state`. -/
structure state where
  segments : List BlockRange
  currentSegmentIdx : Nat
  blocksCountedInThisSegment : Nat
  differencesFound : Nat
  missingBlocks : Nat
  totalBlocksCounted : Nat
  deriving DecidableEq, Repr

/-- One line written by `state.print`: which of the four `fmt.Printf` calls ran, and
with which arguments. -/
inductive Summary where
  | noBlocksFound (start : Nat) (endBlock : String)
  | noDifferences (start : Nat) (endBlock : String) (counted : Nat)
  | missingOnly (start : Nat) (endBlock : String) (missing counted : Nat)
  | different (start : Nat) (endBlock : String) (differences missing counted : Nat)
  deriving DecidableEq, Repr

/-- The text of a summary line, from the format strings of `state.print`. -/
def Summary.render : Summary → String
  | .noBlocksFound start e =>
      "✖ No blocks were found at all for segment " ++ toString start ++ " - " ++ e ++ "\n"
  | .noDifferences start e c =>
      "✓ Segment " ++ toString start ++ " - " ++ e ++ " has no differences ("
        ++ toString c ++ " blocks counted)\n"
  | .missingOnly start e m c =>
      "✓~ Segment " ++ toString start ++ " - " ++ e
        ++ " has no differences but does have " ++ toString m ++ " missing blocks ("
        ++ toString c ++ " blocks counted)\n"
  | .different start e d m c =>
      "✖ Segment " ++ toString start ++ " - " ++ e ++ " has " ++ toString d
        ++ " different blocks and " ++ toString m ++ " missing blocks ("
        ++ toString c ++ " blocks counted)\n"

/-- The block count a summary line reports in `(%d blocks counted)`; the
"no blocks were found at all" line reports none. -/
def Summary.blocksCounted : Summary → Nat
  | .noBlocksFound _ _ => 0
  | .noDifferences _ _ c => c
  | .missingOnly _ _ _ c => c
  | .different _ _ _ _ c => c

/-- The method `state.print`: the line it writes, `none` when
`segments[currentSegmentIdx]` is out of range. -/
def state.print (s : state) : Option Summary :=
  match s.segments[s.currentSegmentIdx]? with
  | none => none
  | some seg =>
    let endBlock := toString (seg.GetStopBlockOr MaxUint64)
    if s.totalBlocksCounted = 0 then
      some (.noBlocksFound seg.Start endBlock)
    else if s.differencesFound = 0 ∧ s.missingBlocks = 0 then
      some (.noDifferences seg.Start endBlock s.totalBlocksCounted)
    else if s.differencesFound = 0 ∧ s.missingBlocks = 0 then
      some (.missingOnly seg.Start endBlock s.missingBlocks s.totalBlocksCounted)
    else
      some (.different seg.Start endBlock s.differencesFound s.missingBlocks
        s.totalBlocksCounted)

/-- The body of the `if` inside the scan loop of `state.process`, for a matching
segment `i`. -/
def state.moveTo (s : state) (i : Nat) : state :=
  { s with
    currentSegmentIdx := i
    totalBlocksCounted := s.totalBlocksCounted + s.blocksCountedInThisSegment
    differencesFound := 0
    missingBlocks := 0
    blocksCountedInThisSegment := 0 }

/-- The scan loop of `state.process`, `for i := s.currentSegmentIdx; i < len(s.segments); i++`,
run over the segments from index `i` on: every segment containing the block moves the
state to it and resets the per-segment counters (the loop has no `break`). -/
def state.scan (blockNum : Nat) : List BlockRange → Nat → state → state
  | [], _, s => s
  | seg :: rest, i, s =>
    state.scan blockNum rest (i + 1) (if seg.Contains blockNum then s.moveTo i else s)

/-- The counting tail of `state.process`. -/
def state.count (s : state) (isDifferent isMissing : Bool) : state :=
  let s := { s with totalBlocksCounted := s.totalBlocksCounted + 1 }
  if isMissing then { s with missingBlocks := s.missingBlocks + 1 }
  else if isDifferent then { s with differencesFound := s.differencesFound + 1 }
  else s

/-- The method `state.process`: the new state and the summary lines written (at most
one); `none` when `segments[currentSegmentIdx]` is out of range. -/
def state.process (s : state) (blockNum : Nat) (isDifferent isMissing : Bool) :
    Option (state × List Summary) :=
  match s.segments[s.currentSegmentIdx]? with
  | none => none
  | some seg =>
    if !seg.Contains blockNum then
      match s.print with
      | none => none
      | some line =>
        let s := state.scan blockNum (s.segments.drop s.currentSegmentIdx) s.currentSegmentIdx s
        some (s.count isDifferent isMissing, [line])
    else
      some (s.count isDifferent isMissing, [])

/-- The state `&state{segments: segments}` built by `runCompareBlocksE`. -/
def state.init (segments : List BlockRange) : state :=
  { segments := segments, currentSegmentIdx := 0, blocksCountedInThisSegment := 0,
    differencesFound := 0, missingBlocks := 0, totalBlocksCounted := 0 }

/-- A stream of `state.process` calls, one per `(blockNum, isDifferent, isMissing)`,
with the lines written along the way. -/
def state.processAll : state → List (Nat × Bool × Bool) → Option (state × List Summary)
  | s, [] => some (s, [])
  | s, (b, d, m) :: rest =>
    match s.process b d m with
    | none => none
    | some (s1, out1) =>
      match state.processAll s1 rest with
      | none => none
      | some (s2, out2) => some (s2, out1 ++ out2)

/-- The rest of a run of the tracker from state `s`: the stream of `process` calls
followed by the final `processState.print()` of `runCompareBlocksE`; the result is
every line written. -/
def state.runFrom (s : state) (stream : List (Nat × Bool × Bool)) : Option (List Summary) :=
  match state.processAll s stream with
  | none => none
  | some (s1, out) =>
    match s1.print with
    | none => none
    | some line => some (out ++ [line])

/-- A whole run of the tracker over `segments`, from the initial state. -/
def state.run (segments : List BlockRange) (stream : List (Nat × Bool × Bool)) :
    Option (List Summary) :=
  state.runFrom (state.init segments) stream

/-! ## Protobuf messages -/

/-- The unknown-fields bag of a decoded message (`protoreflect.RawFields`), held as the
sequence of fields that the repeated `protowire.ConsumeField` calls of `Compare` split
it into: each entry is a field number `fnum` with the `n` raw bytes `x[:n]` of that
field (tag included).  The bag of a decoded message is well-formed wire data, on which
`ConsumeField` does not fail. -/
abbrev RawFields := List (Nat × List Nat)

/-- The bytes of the bag, as `GetUnknown()` returns them. -/
def RawFields.bytes (x : RawFields) : List Nat := (x.map Prod.snd).flatten

/-- A `proto.Message` held through a pointer.  `invalid` is the typed nil pointer, whose
`ProtoReflect().IsValid()` is false; `valid addr known unknown` is a pointer with address
`addr` to a message with the given known field values and top-level unknown-fields bag,
the bag `GetUnknown()` returns and `SetUnknown(nil)` clears.  `K` is the type of the
known field values.  The value of a message field is the nested message whole, its own
unknown-fields bag included (`TimestampedKnown` is such a `K`), and two values of `K`
are equal when `proto.Equal` finds the known fields equal.  Two arguments with the same
address are the same pointer. -/
inductive Message (K : Type) where
  | invalid
  | valid (addr : Nat) (known : K) (unknown : RawFields)
  deriving DecidableEq, Repr

/-- The map update `m[fnum] = append(m[fnum], raw...)` on a map held as an association
list with distinct keys, in order of first insertion. -/
def FieldMap.append : List (Nat × List Nat) → Nat → List Nat → List (Nat × List Nat)
  | [], fnum, raw => [(fnum, raw)]
  | (k, v) :: t, fnum, raw =>
    if k = fnum then (k, v ++ raw) :: t else (k, v) :: FieldMap.append t fnum raw

/-- The map `make(map[protoreflect.FieldNumber]protoreflect.RawFields)` filled by the
loop `for len(x) > 0 { fnum, _, n := protowire.ConsumeField(x); ... }`. -/
def toFieldMap (x : RawFields) : List (Nat × List Nat) :=
  x.foldl (fun m f => FieldMap.append m f.1 f.2) []

/-- The lookup `m[k]` with its `ok` flag. -/
def FieldMap.get (m : List (Nat × List Nat)) (k : Nat) : Option (List Nat) :=
  (m.find? (fun e => e.1 = k)).map Prod.snd

/-- The function `reflect.DeepEqual` on two field maps: same keys, same bytes under each. -/
def FieldMap.deepEqual (mx my : List (Nat × List Nat)) : Bool :=
  mx.all (fun e => FieldMap.get my e.1 = some e.2) &&
  my.all (fun e => FieldMap.get mx e.1 = some e.2)

/-- The unknown-field comparison inside `proto.Equal` (protobuf-go, `equalUnknown`):
equal lengths, then identical bytes or equal per-number maps. -/
def equalUnknown (x y : RawFields) : Bool :=
  if x.bytes.length ≠ y.bytes.length then false
  else if x.bytes = y.bytes then true
  else FieldMap.deepEqual (toFieldMap x) (toFieldMap y)

/-- The library function `proto.Equal` on two non-nil interfaces of one message type, as
protobuf-go documents it: identical pointers are equal; otherwise the two messages must
agree on validity, on the known field values and on the unknown fields. -/
def protoEqual {K : Type} [DecidableEq K] : Message K → Message K → Bool
  | .invalid, .invalid => true
  | .valid a k u, .valid b k2 u2 => decide (a = b) || (decide (k = k2) && equalUnknown u u2)
  | _, _ => false

/-- The JSON side of `Compare`, taken as given: `json.MarshalIndent` on a message (which
serialises its known fields only), `jd.ReadJsonString`, and `r.Diff(c).Render()`.
A `none` is the error that `cli.NoError` turns into the end of the process. -/
structure JsonLib (K J : Type) where
  MarshalIndent : K → Option String
  ReadJsonString : String → Option J
  DiffRender : J → J → String

/-- Two lower-case hexadecimal digits per byte: the verb `%x` on a byte slice. -/
def hex (bs : List Nat) : String :=
  String.mk (bs.flatMap (fun b => [Nat.digitChar (b / 16 % 16), Nat.digitChar (b % 16)]))

/-- The line for a field number found in the reference bag only. -/
def fmtReferenceOnly (k : Nat) (v : List Nat) : String :=
  "reference block contains unknown protobuf field number " ++ toString k ++ " ("
    ++ hex v ++ "), but current block does not"

/-- The line for a field number whose bytes differ between the two bags. -/
def fmtDifferentValues (k : Nat) (v vv : List Nat) : String :=
  "unknown protobuf field number " ++ toString k ++ " has different values. Reference: "
    ++ hex v ++ ", current: " ++ hex vv

/-- The line for a field number found in the current bag only. -/
def fmtCurrentOnly (k : Nat) (v : List Nat) : String :=
  "current block contains unknown protobuf field number " ++ toString k ++ " ("
    ++ hex v ++ "), but reference block does not"

/-- The loop `for k, v := range mx` of `Compare`: each key of `mx` is looked up in `my`.
Go leaves the visiting order of a map unspecified; here it is the order of first
insertion. -/
def referenceSideDifferences (mx my : List (Nat × List Nat)) : List String :=
  mx.foldl (fun acc e =>
    match FieldMap.get my e.1 with
    | none => acc ++ [fmtReferenceOnly e.1 e.2]
    | some vv => if e.2 ≠ vv then acc ++ [fmtDifferentValues e.1 e.2 vv] else acc) []

/-- The loop `for k := range my` of `Compare`, appending to `differences`: each key of
`my` is looked up in `my` again (`v, ok := my[k]`), as the source does. -/
def currentSideDifferences (my : List (Nat × List Nat)) (differences : List String) :
    List String :=
  my.foldl (fun acc e =>
    match FieldMap.get my e.1 with
    | none => acc ++ [fmtCurrentOnly e.1 []]
    | some _ => acc) differences

/-- The two `range` loops of `Compare` over the field maps `mx` and `my`. -/
def unknownDifferences (mx my : List (Nat × List Nat)) : List String :=
  currentSideDifferences my (referenceSideDifferences mx my)

/-- The tail of `Compare` from `proto.Equal` on: the verdict, and on a mismatch the
rendered JSON diff appended when it is not empty. -/
def compareTail {K J : Type} [DecidableEq K] (lib : JsonLib K J)
    (reference current : Message K) (refKnown curKnown : K) (differences : List String) :
    Option (Bool × List String) :=
  if !protoEqual reference current then
    match lib.MarshalIndent refKnown with
    | none => none
    | some ref =>
      match lib.MarshalIndent curKnown with
      | none => none
      | some cur =>
        match lib.ReadJsonString ref with
        | none => none
        | some r =>
          match lib.ReadJsonString cur with
          | none => none
          | some c =>
            let diff := lib.DiffRender r c
            some (false, if diff ≠ "" then differences ++ [diff] else differences)
  else some (true, [])

/-- The function `Compare` on two non-nil interfaces. -/
def CompareMessages {K J : Type} [DecidableEq K] (lib : JsonLib K J)
    (reference current : Message K) (ignoreUnknown : Bool) : Option (Bool × List String) :=
  match reference, current with
  | .invalid, .invalid => some (true, [])
  | .valid _ _ _, .invalid =>
    some (false, ["reference block is valid protobuf message, but current block is invalid"])
  | .invalid, .valid _ _ _ =>
    some (false, ["reference block is invalid protobuf message, but current block is valid"])
  | .valid a k x, .valid b k2 y =>
    if a = b then some (true, [])
    else if ignoreUnknown then
      compareTail lib (.valid a k []) (.valid b k2 []) k k2 []
    else
      compareTail lib (.valid a k x) (.valid b k2 y) k k2
        (if x.bytes ≠ y.bytes then unknownDifferences (toFieldMap x) (toFieldMap y) else [])

/-- The function `Compare`.  A `none` argument is the nil interface; a `none` result is a
run that does not return (a nil dereference when exactly one side is nil, or a JSON
error).  With `ignoreUnknown` the source also clears the unknown fields of both
arguments in place; a later call with `ignoreUnknown` clears them again, so the
verdicts of a run do not depend on it (`CompareMessages_strip`). -/
def Compare {K J : Type} [DecidableEq K] (lib : JsonLib K J)
    (reference current : Option (Message K)) (ignoreUnknown : Bool) :
    Option (Bool × List String) :=
  match reference, current with
  | none, none => some (true, [])
  | some r, some c => CompareMessages lib r c ignoreUnknown
  | _, _ => none

/-! ## Bundles -/

/-- A decoded block `B`: what `GetFirehoseBlockID()` and `GetFirehoseBlockNumber()`
return, and the message that `Compare` receives. -/
structure Block (K : Type) where
  ID : String
  Number : Nat
  msg : Message K
  deriving DecidableEq, Repr

/-- A Go `map[string]B`, held as an association list with distinct keys. -/
abbrev BlockMap (K : Type) := List (String × Block K)

/-- The assignment `m[id] = b`. -/
def BlockMap.set {K : Type} : BlockMap K → String → Block K → BlockMap K
  | [], id, b => [(id, b)]
  | (k, v) :: t, id, b => if k = id then (k, b) :: t else (k, v) :: BlockMap.set t id b

/-- The lookup `m[id]` with its `ok` flag. -/
def BlockMap.get {K : Type} (m : BlockMap K) (id : String) : Option (Block K) :=
  (m.find? (fun e => e.1 = id)).map Prod.snd

/-- The keys of the map. -/
def BlockMap.keys {K : Type} (m : BlockMap K) : List String := m.map Prod.fst

/-- One record as `blockReader.Read()` returns it: number, id, and what
`curBlock.Payload.UnmarshalTo(b)` gives for a fresh block (`none` when it fails). -/
structure StreamBlock (K : Type) where
  Number : Nat
  Id : String
  Payload : Option (Block K)

/-- What `readBundle` prints. -/
inductive BundleEvent where
  | warnExtraBlocks (blockNum : Nat)
  | unmarshalError (blockNum : Nat)
  deriving DecidableEq, Repr

/-- The variables of the loop of `readBundle`, with the `sync.Once` it is handed. -/
structure ReadState (K : Type) where
  blockHashes : List String
  blocksMap : BlockMap K
  warned : Bool
  log : List BundleEvent

/-- The loop of `readBundle` over the results of `blockReader.Read()`: the end of the
list is `io.EOF`, an `error` entry is any other read error. -/
def readLoop {K : Type} (fileStartBlock stopBlock : Nat) (sanitizer : Block K → Block K) :
    List (Except String (StreamBlock K)) → ReadState K → Except String (ReadState K)
  | [], st => .ok st
  | .error e :: _, _ => .error ("reading blocks: " ++ e)
  | .ok curBlock :: rest, st =>
    if curBlock.Number ≥ stopBlock then .ok st
    else if curBlock.Number < fileStartBlock then
      readLoop fileStartBlock stopBlock sanitizer rest
        { st with
          warned := true
          log := if st.warned then st.log else st.log ++ [.warnExtraBlocks curBlock.Number] }
    else
      match curBlock.Payload with
      | none => .ok { st with log := st.log ++ [.unmarshalError curBlock.Number] }
      | some b =>
        readLoop fileStartBlock stopBlock sanitizer rest
          { st with
            blockHashes := st.blockHashes ++ [curBlock.Id]
            blocksMap := st.blocksMap.set curBlock.Id (sanitizer b) }

/-- What `store.OpenObject` and `bstream.NewDBinBlockReader` give `readBundle`. -/
inductive Source (K : Type) where
  | openError (e : String)
  | readerError (e : String)
  | reader (stream : List (Except String (StreamBlock K)))

/-- The function `readBundle`; `warned` tells whether the shared `sync.Once` has fired. -/
def readBundle {K : Type} (source : Source K) (fileStartBlock stopBlock : Nat)
    (sanitizer : Block K → Block K) (warned : Bool) : Except String (ReadState K) :=
  match source with
  | .openError e => .error ("creating reader: " ++ e)
  | .readerError e => .error ("creating block reader: " ++ e)
  | .reader stream =>
    readLoop fileStartBlock stopBlock sanitizer stream
      { blockHashes := [], blocksMap := [], warned := warned, log := [] }

/-! ## The comparison loop of `runCompareBlocksE` -/

/-- What the comparison loop prints: the line `- Block %s is different` with the
reference block's id and number, a line of the diff, or a summary line of the tracker. -/
inductive Event where
  | blockDifferent (id : String) (blockNum : Nat)
  | diff (d : String)
  | summary (line : Summary)
  deriving DecidableEq, Repr

/-- The loop `for _, referenceBlockHash := range referenceBlockHashes` of
`runCompareBlocksE`.  An id missing from `referenceBlocks` would make the source call
a method on the zero value of `B`; that run is `none` here (`readBundle` never produces
such an id). -/
def compareBundle {K J : Type} [DecidableEq K] (lib : JsonLib K J)
    (displayDiff ignoreUnknown : Bool) (referenceBlocks currentBlocks : BlockMap K) :
    List String → state → Option (state × List Event)
  | [], s => some (s, [])
  | referenceBlockHash :: rest, s =>
    match referenceBlocks.get referenceBlockHash with
    | none => none
    | some referenceBlock =>
      let compared : Option (Bool × Bool × List Event) :=
        match currentBlocks.get referenceBlockHash with
        | none => some (false, false, [])
        | some currentBlock =>
          match Compare lib (some referenceBlock.msg) (some currentBlock.msg) ignoreUnknown with
          | none => none
          | some (isEqual, differences) =>
            some (isEqual, true,
              if !isEqual then
                Event.blockDifferent referenceBlock.ID referenceBlock.Number ::
                  (if displayDiff then differences.map Event.diff else [])
              else [])
      match compared with
      | none => none
      | some (isEqual, existsInCurrent, out1) =>
        match s.process referenceBlock.Number (!isEqual) (!existsInCurrent) with
        | none => none
        | some (s1, lines) =>
          match compareBundle lib displayDiff ignoreUnknown referenceBlocks currentBlocks
              rest s1 with
          | none => none
          | some (s2, out2) => some (s2, out1 ++ lines.map Event.summary ++ out2)

/-! ## Hypotheses and reference definitions of the theorems -/

/-- A range whose stop, when it has one, is not before its start. -/
def BlockRange.wellFormed (r : BlockRange) : Bool :=
  match r.Stop with
  | none => true
  | some e => decide (r.Start ≤ e)

/-- A contiguous, non-overlapping segment list: every segment is well formed and
stops exactly where the next one starts. -/
def contiguous : List BlockRange → Bool
  | [] => true
  | [a] => a.wellFormed
  | a :: b :: rest => a.wellFormed && decide (a.Stop = some b.Start) && contiguous (b :: rest)

/-- Three contiguous segments `[0,2)`, `[2,4)`, `[4,5)`, the last one truncated. -/
def smallSegments : List BlockRange := [⟨0, some 2⟩, ⟨2, some 4⟩, ⟨4, some 5⟩]

/-- A state in the first of `smallSegments` with two records counted, one of them
different. -/
def smallState : state :=
  { segments := smallSegments, currentSegmentIdx := 0, blocksCountedInThisSegment := 0,
    differencesFound := 1, missingBlocks := 0, totalBlocksCounted := 2 }

/-- Whether an id of the reference bundle is absent from the current map. -/
def absentFromCurrent {K : Type} (currentBlocks : BlockMap K) (id : String) : Bool :=
  (currentBlocks.get id).isNone

/-- Whether an id of the reference bundle is present in the current map with a record
that `Compare` reports unequal to the reference record. -/
def reportedUnequal {K J : Type} [DecidableEq K] (lib : JsonLib K J) (ignoreUnknown : Bool)
    (referenceBlocks currentBlocks : BlockMap K) (id : String) : Bool :=
  match referenceBlocks.get id, currentBlocks.get id with
  | some r, some c =>
    match Compare lib (some r.msg) (some c.msg) ignoreUnknown with
    | some (isEqual, _) => !isEqual
    | none => false
  | _, _ => false

/-- A JSON library over known field values that are numbers: the number in decimal as
the document, and a two-line rendering of a changed document. -/
def numberJson : JsonLib Nat String :=
  { MarshalIndent := fun k => some (toString k)
    ReadJsonString := fun s => some s
    DiffRender := fun a b => if a = b then "" else "@ []\n- " ++ a ++ "\n+ " ++ b ++ "\n" }

/-- The reference bundle of the scenario: records A, B, C numbered 0, 1, 2. -/
def scenarioReference : BlockMap Nat :=
  [("A", ⟨"A", 0, .valid 1 10 []⟩), ("B", ⟨"B", 1, .valid 2 11 []⟩),
    ("C", ⟨"C", 2, .valid 3 12 []⟩)]

/-- The current bundle of the scenario: A as in the reference, B missing, C with another
known field value. -/
def scenarioCurrent : BlockMap Nat :=
  [("A", ⟨"A", 0, .valid 4 10 []⟩), ("C", ⟨"C", 2, .valid 5 13 []⟩)]

/-- The segment start a summary line names. -/
def Summary.start : Summary → Nat
  | .noBlocksFound start _ => start
  | .noDifferences start _ _ => start
  | .missingOnly start _ _ _ => start
  | .different start _ _ _ _ => start

/-- The segment end a summary line names. -/
def Summary.endBlock : Summary → String
  | .noBlocksFound _ e => e
  | .noDifferences _ e _ => e
  | .missingOnly _ e _ _ => e
  | .different _ e _ _ _ => e

/-- Whether a summary line is the line of segment `i`: it names that segment's start and
end. -/
def isSummaryOf (segments : List BlockRange) (i : Nat) (line : Summary) : Bool :=
  match segments[i]? with
  | none => false
  | some seg =>
    decide (line.start = seg.Start) &&
      decide (line.endBlock = toString (seg.GetStopBlockOr MaxUint64))

/-- Whether block `b` lies in segment `cur`. -/
def inSegment (segments : List BlockRange) (cur b : Nat) : Bool :=
  match segments[cur]? with
  | none => false
  | some seg => seg.Contains b

/-- The index of the first segment containing block `b`. -/
def segmentOf (segments : List BlockRange) (b : Nat) : Nat :=
  segments.findIdx (fun seg => seg.Contains b)

/-- The number of records of a stream that fall outside the segment current when they
arrive, the current segment being `cur` at first and then the segment of the latest
record. -/
def crossingRecords (segments : List BlockRange) : Nat → List Nat → Nat
  | _, [] => 0
  | cur, b :: rest =>
    if inSegment segments cur b then crossingRecords segments cur rest
    else crossingRecords segments (segmentOf segments b) rest + 1

/-- The segments a run is expected to flush, in order: the current segment each time a
record falls outside it, and the segment current at the end of the stream. -/
def flushedSegments (segments : List BlockRange) : Nat → List Nat → List Nat
  | cur, [] => [cur]
  | cur, b :: rest =>
    if inSegment segments cur b then flushedSegments segments cur rest
    else cur :: flushedSegments segments (segmentOf segments b) rest

/-- The segments `[0, 100000)`, `[100000, 200000)`, `[200000, 250000)` that the range
`0:250000` splits into. -/
def segments250k : List BlockRange :=
  [⟨0, some 100000⟩, ⟨100000, some 200000⟩, ⟨200000, some 250000⟩]

/-- The stream of the block numbers `0 .. 249999`, every record equal. -/
def stream250k : List (Nat × Bool × Bool) :=
  (List.range' 0 250000).map (fun b => (b, false, false))

/-- The block counts the flushes of a run are expected to report if each flush reports
the number of records processed so far in the whole run, `n` being that number at first. -/
def cumulativeCounts (segments : List BlockRange) : Nat → Nat → List Nat → List Nat
  | _, n, [] => [n]
  | cur, n, b :: rest =>
    if inSegment segments cur b then cumulativeCounts segments cur (n + 1) rest
    else n :: cumulativeCounts segments (segmentOf segments b) (n + 1) rest

/-- The records of a stream that `readBundle` goes through: those before the first record
whose number reaches `stopBlock` and before the first record at or after
`fileStartBlock` that fails to unmarshal. -/
def scannedRecords {K : Type} (fileStartBlock stopBlock : Nat)
    (blocks : List (StreamBlock K)) : List (StreamBlock K) :=
  blocks.takeWhile (fun r =>
    decide (r.Number < stopBlock) && (decide (r.Number < fileStartBlock) || r.Payload.isSome))

/-- The records of a stream that `readBundle` is expected to keep: the scanned records
whose number is at least `fileStartBlock`. -/
def retainedRecords {K : Type} (fileStartBlock stopBlock : Nat)
    (blocks : List (StreamBlock K)) : List (StreamBlock K) :=
  (scannedRecords fileStartBlock stopBlock blocks).filter
    (fun r => decide (fileStartBlock ≤ r.Number))

/-- A bundle whose file starts at block 100 and which holds a record numbered 50 ahead
of the records 100 and 101. -/
def strayBundle : List (StreamBlock Nat) :=
  [ ⟨50, "s", some ⟨"s", 50, .valid 1 0 []⟩⟩,
    ⟨100, "a", some ⟨"a", 100, .valid 2 0 []⟩⟩,
    ⟨101, "b", some ⟨"b", 101, .valid 3 0 []⟩⟩ ]

/-- The known field values of a block message with a number field `lib_num` and a
message field `timestamp`: the number, the `seconds` of the timestamp, and the
unknown-fields bag of the nested timestamp message.  The nested bag belongs to the value
of the field `timestamp`: `SetUnknown(nil)` on the block does not reach it and
`proto.Equal` on the block compares it. -/
structure TimestampedKnown where
  libNum : Nat
  seconds : Nat
  timestampUnknown : RawFields
  deriving DecidableEq, Repr

/-- A JSON library over `TimestampedKnown`: the document holds the known fields
`lib_num` and `timestamp.seconds` and, as `json.MarshalIndent` does, no unknown field. -/
def timestampedJson : JsonLib TimestampedKnown String :=
  { MarshalIndent := fun k =>
      some ("\x7b\"lib_num\": " ++ toString k.libNum ++ ", \"timestamp\": \x7b\"seconds\": "
        ++ toString k.seconds ++ "\x7d\x7d")
    ReadJsonString := fun s => some s
    DiffRender := fun a b => if a = b then "" else "@ []\n- " ++ a ++ "\n+ " ++ b ++ "\n" }

/-! ## Segment lists -/

theorem contiguous_tail {a : BlockRange} {rest : List BlockRange}
    (h : contiguous (a :: rest) = true) : contiguous rest = true := by
  cases rest with
  | nil => rfl
  | cons b rest => simp [contiguous] at h; exact h.2

theorem contiguous_head_wf {a : BlockRange} {rest : List BlockRange}
    (h : contiguous (a :: rest) = true) : a.wellFormed = true := by
  cases rest with
  | nil => simpa [contiguous] using h
  | cons b rest => simp [contiguous] at h; exact h.1.1

/-- In a contiguous list the head stops at or before the start of every later segment. -/
theorem contiguous_head_le {a : BlockRange} {rest : List BlockRange}
    (h : contiguous (a :: rest) = true) :
    ∀ b ∈ rest, ∃ e, a.Stop = some e ∧ e ≤ b.Start := by
  induction rest generalizing a with
  | nil => intro b hb; cases hb
  | cons c rest ih =>
    intro b hb
    have hc : contiguous (c :: rest) = true := contiguous_tail h
    have hac : a.Stop = some c.Start := by
      simp [contiguous] at h; exact h.1.2
    rcases List.mem_cons.1 hb with rfl | hb
    · exact ⟨_, hac, le_refl _⟩
    · obtain ⟨e, he, hle⟩ := ih hc b hb
      have hwf := contiguous_head_wf hc
      simp [BlockRange.wellFormed, he] at hwf
      exact ⟨_, hac, le_trans hwf hle⟩

/-- Segments of a contiguous list are ordered: an earlier one stops at or before the
start of a later one. -/
theorem contiguous_pairwise {segs : List BlockRange} (h : contiguous segs = true) :
    segs.Pairwise (fun a b => ∃ e, a.Stop = some e ∧ e ≤ b.Start) := by
  induction segs with
  | nil => exact List.Pairwise.nil
  | cons a rest ih =>
    exact List.Pairwise.cons (contiguous_head_le h) (ih (contiguous_tail h))

theorem contiguous_ordered {segs : List BlockRange} (h : contiguous segs = true)
    {i j : Nat} {a b : BlockRange} (hij : i < j)
    (ha : segs[i]? = some a) (hb : segs[j]? = some b) :
    ∃ e, a.Stop = some e ∧ e ≤ b.Start := by
  have hp := contiguous_pairwise h
  rw [List.pairwise_iff_getElem] at hp
  obtain ⟨hi, rfl⟩ := List.getElem?_eq_some_iff.1 ha
  obtain ⟨hj, rfl⟩ := List.getElem?_eq_some_iff.1 hb
  exact hp i j hi hj hij

theorem Contains_lt_stop {r : BlockRange} {n e : Nat} (h : r.Contains n = true)
    (he : r.Stop = some e) : n < e := by
  simp [BlockRange.Contains, he] at h; exact h.2

theorem Contains_start_le {r : BlockRange} {n : Nat} (h : r.Contains n = true) :
    r.Start ≤ n := by
  unfold BlockRange.Contains at h
  cases hs : r.Stop <;> simp [hs] at h
  · exact h
  · exact h.1

/-- A block number lies in at most one segment of a contiguous list. -/
theorem contiguous_unique {segs : List BlockRange} (h : contiguous segs = true)
    {i j n : Nat} {a b : BlockRange} (ha : segs[i]? = some a) (hb : segs[j]? = some b)
    (hai : a.Contains n = true) (hbi : b.Contains n = true) : i = j := by
  rcases Nat.lt_trichotomy i j with hij | hij | hij
  · obtain ⟨e, he, hle⟩ := contiguous_ordered h hij ha hb
    have h1 := Contains_lt_stop hai he
    have h2 := Contains_start_le hbi
    omega
  · exact hij
  · obtain ⟨e, he, hle⟩ := contiguous_ordered h hij hb ha
    have h1 := Contains_lt_stop hbi he
    have h2 := Contains_start_le hai
    omega

/-! ## The scan loop and `process` -/

theorem scan_none (blockNum : Nat) (l : List BlockRange) (i : Nat) (s : state)
    (h : ∀ seg ∈ l, seg.Contains blockNum = false) : state.scan blockNum l i s = s := by
  induction l generalizing i s with
  | nil => rfl
  | cons seg rest ih =>
    have h0 : seg.Contains blockNum = false := h seg (List.mem_cons_self _ _)
    simp only [state.scan, h0, Bool.false_eq_true, if_false]
    exact ih (i + 1) s (fun x hx => h x (List.mem_cons_of_mem _ hx))

/-- The scan loop over a list in which exactly the segment at offset `m` contains the
block leaves the state moved to that segment. -/
theorem scan_at (blockNum : Nat) (l : List BlockRange) (i m : Nat) (s : state)
    (hm : m < l.length)
    (h : ∀ k seg, l[k]? = some seg → (seg.Contains blockNum = true ↔ k = m)) :
    state.scan blockNum l i s = s.moveTo (i + m) := by
  induction l generalizing i m s with
  | nil => simp at hm
  | cons seg rest ih =>
    cases m with
    | zero =>
      have h0 : seg.Contains blockNum = true := (h 0 seg (by simp)).2 rfl
      simp only [state.scan, h0, if_true, Nat.add_zero]
      apply scan_none
      intro x hx
      obtain ⟨k, hk⟩ := List.getElem?_of_mem hx
      have := h (k + 1) x (by simpa using hk)
      cases hc : x.Contains blockNum
      · rfl
      · have := this.1 hc; omega
    | succ m =>
      have h0 : seg.Contains blockNum = false := by
        cases hc : seg.Contains blockNum
        · rfl
        · have := (h 0 seg (by simp)).1 hc; omega
      simp only [state.scan, h0, Bool.false_eq_true, if_false]
      have := ih (i + 1) m s (by simpa using hm) (fun k x hk => by
        have := h (k + 1) x (by simpa using hk)
        rw [this]; omega)
      rw [this]
      congr 1; omega

theorem count_segments (s : state) (d m : Bool) : (s.count d m).segments = s.segments := by
  unfold state.count; split_ifs <;> rfl

theorem count_idx (s : state) (d m : Bool) :
    (s.count d m).currentSegmentIdx = s.currentSegmentIdx := by
  unfold state.count; split_ifs <;> rfl

theorem count_total (s : state) (d m : Bool) :
    (s.count d m).totalBlocksCounted = s.totalBlocksCounted + 1 := by
  unfold state.count; split_ifs <;> rfl

theorem count_missing (s : state) (d m : Bool) :
    (s.count d m).missingBlocks = s.missingBlocks + (if m then 1 else 0) := by
  unfold state.count; split_ifs <;> simp_all

theorem count_differences (s : state) (d m : Bool) :
    (s.count d m).differencesFound
      = s.differencesFound + (if m then 0 else if d then 1 else 0) := by
  unfold state.count; split_ifs <;> simp_all

/-- A record outside the current segment: `process` prints the current segment and scans
forward to the segment holding the record. -/
theorem process_outside {s : state} {blockNum j : Nat} {cur seg : BlockRange}
    (isDifferent isMissing : Bool)
    (hseg : contiguous s.segments = true)
    (hcur : s.segments[s.currentSegmentIdx]? = some cur)
    (hout : cur.Contains blockNum = false)
    (hj : s.currentSegmentIdx ≤ j)
    (hjseg : s.segments[j]? = some seg)
    (hin : seg.Contains blockNum = true) :
    ∃ line, s.print = some line ∧
      s.process blockNum isDifferent isMissing
        = some ((s.moveTo j).count isDifferent isMissing, [line]) := by
  have hp : ∃ line, s.print = some line := by
    unfold state.print; rw [hcur]; simp only; split_ifs <;> exact ⟨_, rfl⟩
  obtain ⟨line, hline⟩ := hp
  refine ⟨line, hline, ?_⟩
  have hlen : j < s.segments.length := (List.getElem?_eq_some_iff.1 hjseg).1
  have hscan : state.scan blockNum (s.segments.drop s.currentSegmentIdx) s.currentSegmentIdx s
      = s.moveTo j := by
    have := scan_at blockNum (s.segments.drop s.currentSegmentIdx) s.currentSegmentIdx
      (j - s.currentSegmentIdx) s (by simp; omega) (fun k x hk => by
        rw [List.getElem?_drop] at hk
        constructor
        · intro hc
          have := contiguous_unique hseg hk hjseg hc hin
          omega
        · intro hk2
          have : s.currentSegmentIdx + k = j := by omega
          rw [this, hjseg] at hk
          cases hk; exact hin)
    rw [this]; congr 1; omega
  unfold state.process
  rw [hcur]
  simp only [hout, Bool.not_false, if_true, hline, hscan]

/-- C10: from a state over a contiguous, non-overlapping segment list whose current index
is in range, a record outside the current segment and inside segment `j`, with `j` at or
after the current index, makes `process` print one line and move to segment `j` (in range,
not before the old index); `differencesFound` and `missingBlocks` are zero in the state
`s0` the record is then counted in, so afterwards they hold that record's contribution
only; the segment list is unchanged. -/
theorem process_segment_change (s : state) (blockNum j : Nat) (isDifferent isMissing : Bool)
    (cur seg : BlockRange)
    (hseg : contiguous s.segments = true)
    (hcur : s.segments[s.currentSegmentIdx]? = some cur)
    (hout : cur.Contains blockNum = false)
    (hj : s.currentSegmentIdx ≤ j)
    (hjseg : s.segments[j]? = some seg)
    (hin : seg.Contains blockNum = true) :
    ∃ (s0 s1 : state) (line : Summary),
      s.process blockNum isDifferent isMissing = some (s1, [line]) ∧
      s1 = s0.count isDifferent isMissing ∧
      s0.differencesFound = 0 ∧ s0.missingBlocks = 0 ∧
      s1.currentSegmentIdx = j ∧
      s1.currentSegmentIdx < s1.segments.length ∧
      s.currentSegmentIdx ≤ s1.currentSegmentIdx ∧
      s1.segments = s.segments ∧
      s1.missingBlocks = (if isMissing then 1 else 0) ∧
      s1.differencesFound = (if isMissing then 0 else if isDifferent then 1 else 0) := by
  obtain ⟨line, _, hproc⟩ := process_outside isDifferent isMissing hseg hcur hout hj hjseg hin
  have hlen : j < s.segments.length := (List.getElem?_eq_some_iff.1 hjseg).1
  refine ⟨s.moveTo j, (s.moveTo j).count isDifferent isMissing, line, hproc, rfl, rfl, rfl,
    ?_, ?_, ?_, ?_, ?_, ?_⟩
  · rw [count_idx]; rfl
  · rw [count_idx, count_segments]; exact hlen
  · rw [count_idx]; exact hj
  · rw [count_segments]; rfl
  · rw [count_missing]; simp [state.moveTo]
  · rw [count_differences]; simp [state.moveTo]

/-- C10 at `smallState` and block 4, which lies in the third segment. -/
theorem process_segment_change_witness :
    ∃ (s0 s1 : state) (line : Summary),
      smallState.process 4 true false = some (s1, [line]) ∧
      s1 = s0.count true false ∧
      s0.differencesFound = 0 ∧ s0.missingBlocks = 0 ∧
      s1.currentSegmentIdx = 2 ∧
      s1.currentSegmentIdx < s1.segments.length ∧
      smallState.currentSegmentIdx ≤ s1.currentSegmentIdx ∧
      s1.segments = smallState.segments ∧
      s1.missingBlocks = (if false then 1 else 0) ∧
      s1.differencesFound = (if false then 0 else if true then 1 else 0) :=
  process_segment_change smallState 4 2 true false ⟨0, some 2⟩ ⟨4, some 5⟩
    (by decide) (by decide) (by decide) (by decide) (by decide) (by decide)

/-! ## The comparison loop -/

/-- A record inside the current segment is counted without any line being printed. -/
theorem process_inside {s : state} {blockNum : Nat} {seg : BlockRange}
    (isDifferent isMissing : Bool)
    (hcur : s.segments[s.currentSegmentIdx]? = some seg)
    (hin : seg.Contains blockNum = true) :
    s.process blockNum isDifferent isMissing = some (s.count isDifferent isMissing, []) := by
  unfold state.process
  rw [hcur]
  simp [hin]

/-- With a JSON library that never fails, `Compare` returns on two non-nil arguments. -/
theorem CompareMessages_isSome {K J : Type} [DecidableEq K] (lib : JsonLib K J)
    (hlib : ∀ k, ∃ s j, lib.MarshalIndent k = some s ∧ lib.ReadJsonString s = some j)
    (r c : Message K) (ignoreUnknown : Bool) :
    ∃ isEqual differences, CompareMessages lib r c ignoreUnknown = some (isEqual, differences) := by
  have tail : ∀ (r c : Message K) (k k2 : K) (d : List String),
      ∃ isEqual differences, compareTail lib r c k k2 d = some (isEqual, differences) := by
    intro r c k k2 d
    obtain ⟨s1, j1, h1, h1j⟩ := hlib k
    obtain ⟨s2, j2, h2, h2j⟩ := hlib k2
    unfold compareTail
    split_ifs
    · simp only [h1, h2, h1j, h2j]; exact ⟨_, _, rfl⟩
    · exact ⟨_, _, rfl⟩
  cases r with
  | invalid =>
    cases c with
    | invalid => exact ⟨_, _, rfl⟩
    | valid b k2 y => exact ⟨_, _, rfl⟩
  | valid a k x =>
    cases c with
    | invalid => exact ⟨_, _, rfl⟩
    | valid b k2 y =>
      unfold CompareMessages
      simp only
      split_ifs
      all_goals first | exact ⟨_, _, rfl⟩ | exact tail _ _ _ _ _

/-- The comparison loop over ids whose records all lie in the current segment adds, to
the counters of the state it starts from, one per id, one missing per absent id and one
difference per id reported unequal, and prints no summary line. -/
theorem compareBundle_inside {K J : Type} [DecidableEq K] (lib : JsonLib K J)
    (hlib : ∀ k, ∃ s j, lib.MarshalIndent k = some s ∧ lib.ReadJsonString s = some j)
    (displayDiff ignoreUnknown : Bool) (referenceBlocks currentBlocks : BlockMap K)
    (seg : BlockRange) (ids : List String) (s : state)
    (hcur : s.segments[s.currentSegmentIdx]? = some seg)
    (hin : ∀ id ∈ ids, ∃ b, referenceBlocks.get id = some b ∧ seg.Contains b.Number = true) :
    ∃ s1 out,
      compareBundle lib displayDiff ignoreUnknown referenceBlocks currentBlocks ids s
        = some (s1, out) ∧
      s1.segments = s.segments ∧ s1.currentSegmentIdx = s.currentSegmentIdx ∧
      s1.missingBlocks = s.missingBlocks + ids.countP (absentFromCurrent currentBlocks) ∧
      s1.differencesFound = s.differencesFound
        + ids.countP (reportedUnequal lib ignoreUnknown referenceBlocks currentBlocks) ∧
      s1.totalBlocksCounted = s.totalBlocksCounted + ids.length ∧
      ∀ line, Event.summary line ∉ out := by
  induction ids generalizing s with
  | nil => exact ⟨s, [], rfl, rfl, rfl, by simp, by simp, by simp, by simp⟩
  | cons id rest ih =>
    obtain ⟨b, hb, hbin⟩ := hin id (List.mem_cons_self _ _)
    have hrest : ∀ id ∈ rest, ∃ b, referenceBlocks.get id = some b ∧
        seg.Contains b.Number = true := fun x hx => hin x (List.mem_cons_of_mem _ hx)
    cases hc : currentBlocks.get id with
    | none =>
      have hproc := process_inside (s := s) true true hcur hbin
      obtain ⟨s1, out, hrun, h1, h2, h3, h4, h5, h6⟩ := ih (s.count true true)
        (by rw [count_segments, count_idx]; exact hcur) hrest
      refine ⟨s1, out, ?_, ?_, ?_, ?_, ?_, ?_, ?_⟩
      · simp [compareBundle, hb, hc, hproc, hrun]
      · rw [h1, count_segments]
      · rw [h2, count_idx]
      · rw [h3, count_missing]
        simp [List.countP_cons, absentFromCurrent, hc]; omega
      · rw [h4, count_differences]
        simp [List.countP_cons, reportedUnequal, hb, hc]
      · rw [h5, count_total]; simp; omega
      · exact h6
    | some c =>
      obtain ⟨isEqual, differences, hcmp⟩ :=
        CompareMessages_isSome lib hlib b.msg c.msg ignoreUnknown
      have hproc := process_inside (s := s) (!isEqual) false hcur hbin
      obtain ⟨s1, out, hrun, h1, h2, h3, h4, h5, h6⟩ := ih (s.count (!isEqual) false)
        (by rw [count_segments, count_idx]; exact hcur) hrest
      refine ⟨s1, (if (!isEqual) = true then
          Event.blockDifferent b.ID b.Number ::
            (if displayDiff = true then differences.map Event.diff else [])
          else []) ++ out, ?_, ?_, ?_, ?_, ?_, ?_, ?_⟩
      · simp only [compareBundle, hb, hc, Compare, hcmp, Bool.not_true, hproc, hrun,
          List.map_nil, List.append_nil]
      · rw [h1, count_segments]
      · rw [h2, count_idx]
      · rw [h3, count_missing]
        simp [List.countP_cons, absentFromCurrent, hc]
      · rw [h4, count_differences]
        cases isEqual <;>
          simp [List.countP_cons, reportedUnequal, hb, hc, Compare, hcmp]
        omega
      · rw [h5, count_total]; simp; omega
      · intro line hmem
        rcases List.mem_append.1 hmem with hm | hm
        · cases isEqual <;> cases displayDiff <;> simp at hm
        · exact h6 line hm

/-- C1: from the initial state, the comparison loop over a reference bundle whose records
all lie in segment 0 returns with `missingBlocks` the number of reference ids absent from
the current map, `differencesFound` the number of reference ids present in the current
map whose records `Compare` reports unequal, and `totalBlocksCounted` the number of
reference ids; an absent id is never among those reported unequal. -/
theorem compareBundle_counts {K J : Type} [DecidableEq K] (lib : JsonLib K J)
    (displayDiff ignoreUnknown : Bool) (segments : List BlockRange) (seg0 : BlockRange)
    (referenceBlocks currentBlocks : BlockMap K) (ids : List String)
    (hlib : ∀ k, ∃ s j, lib.MarshalIndent k = some s ∧ lib.ReadJsonString s = some j)
    (hseg0 : segments[0]? = some seg0)
    (hin : ∀ id ∈ ids, ∃ b, referenceBlocks.get id = some b ∧ seg0.Contains b.Number = true) :
    ∃ (s : state) (out : List Event),
      compareBundle lib displayDiff ignoreUnknown referenceBlocks currentBlocks ids
        (state.init segments) = some (s, out) ∧
      s.missingBlocks = ids.countP (absentFromCurrent currentBlocks) ∧
      s.differencesFound
        = ids.countP (reportedUnequal lib ignoreUnknown referenceBlocks currentBlocks) ∧
      s.totalBlocksCounted = ids.length ∧
      ∀ id, absentFromCurrent currentBlocks id = true →
        reportedUnequal lib ignoreUnknown referenceBlocks currentBlocks id = false := by
  obtain ⟨s, out, hrun, _, _, h3, h4, h5, _⟩ :=
    compareBundle_inside lib hlib displayDiff ignoreUnknown referenceBlocks currentBlocks
      seg0 ids (state.init segments) hseg0 hin
  refine ⟨s, out, hrun, ?_, ?_, ?_, ?_⟩
  · simpa [state.init] using h3
  · simpa [state.init] using h4
  · simpa [state.init] using h5
  · intro id hid
    unfold absentFromCurrent at hid
    unfold reportedUnequal
    cases hc : currentBlocks.get id with
    | none => cases referenceBlocks.get id <;> rfl
    | some c => simp [hc] at hid

/-- C1 on the scenario: reference A, B, C numbered 0, 1, 2, current A and a differing C;
the loop leaves 1 missing, 1 different and 3 counted, and the final summary line is the
one with 1 different and 1 missing block out of 3 counted. -/
theorem compareBundle_counts_witness :
    (∃ (s : state) (out : List Event),
      compareBundle numberJson true false scenarioReference scenarioCurrent ["A", "B", "C"]
        (state.init [⟨0, some 100000⟩]) = some (s, out) ∧
      s.missingBlocks = ["A", "B", "C"].countP (absentFromCurrent scenarioCurrent) ∧
      s.differencesFound = ["A", "B", "C"].countP
        (reportedUnequal numberJson false scenarioReference scenarioCurrent) ∧
      s.totalBlocksCounted = ["A", "B", "C"].length ∧
      ∀ id, absentFromCurrent scenarioCurrent id = true →
        reportedUnequal numberJson false scenarioReference scenarioCurrent id = false) ∧
    (compareBundle numberJson true false scenarioReference scenarioCurrent ["A", "B", "C"]
        (state.init [⟨0, some 100000⟩])).map (fun r => (r.1.print, r.2))
      = some (some (.different 0 "100000" 1 1 3),
          [.blockDifferent "C" 2, .diff "@ []\n- 12\n+ 13\n"]) :=
  ⟨compareBundle_counts numberJson true false [⟨0, some 100000⟩] ⟨0, some 100000⟩
      scenarioReference scenarioCurrent ["A", "B", "C"]
      (fun k => ⟨toString k, toString k, rfl, rfl⟩) (by decide) (by decide),
    by decide⟩

/-! ## The summary line of a segment with missing blocks only -/

/-- C3 (the code on the failing input): after the records 0 (equal), 1 (missing) and
2 (equal) of segment `[0, 100000)` the state has no difference, one missing block and
three blocks counted, and `print` writes the line with `0 different blocks and 1 missing
blocks`, not the line `has no differences but does have 1 missing blocks`. -/
theorem print_missing_without_differences :
    state.processAll (state.init [⟨0, some 100000⟩])
        [(0, false, false), (1, true, true), (2, false, false)]
      = some ({ segments := [⟨0, some 100000⟩], currentSegmentIdx := 0,
                blocksCountedInThisSegment := 0, differencesFound := 0,
                missingBlocks := 1, totalBlocksCounted := 3 }, []) ∧
    state.print { segments := [⟨0, some 100000⟩], currentSegmentIdx := 0,
                  blocksCountedInThisSegment := 0, differencesFound := 0,
                  missingBlocks := 1, totalBlocksCounted := 3 }
      = some (.different 0 "100000" 0 1 3) ∧
    Summary.render (.different 0 "100000" 0 1 3)
      = "✖ Segment 0 - 100000 has 0 different blocks and 1 missing blocks (3 blocks counted)\n" := by
  decide

/-! ## Runs of the segment tracker -/

theorem runFrom_nil (s : state) : state.runFrom s [] = s.print.map (fun l => [l]) := by
  unfold state.runFrom
  simp only [state.processAll]
  cases s.print <;> rfl

theorem runFrom_cons (s : state) (b : Nat) (d m : Bool) (rest : List (Nat × Bool × Bool)) :
    state.runFrom s ((b, d, m) :: rest) =
      match s.process b d m with
      | none => none
      | some (s1, out1) => (state.runFrom s1 rest).map (fun out2 => out1 ++ out2) := by
  unfold state.runFrom
  simp only [state.processAll]
  cases hp : s.process b d m with
  | none => rfl
  | some r =>
    obtain ⟨s1, out1⟩ := r
    simp only
    cases hq : state.processAll s1 rest with
    | none => rfl
    | some r2 =>
      obtain ⟨s2, out2⟩ := r2
      simp only
      cases s2.print <;> simp

/-- With its index in range `print` writes the line of the current segment, reporting
`totalBlocksCounted` as the block count. -/
theorem print_spec (s : state) (seg : BlockRange)
    (hcur : s.segments[s.currentSegmentIdx]? = some seg) :
    ∃ line, s.print = some line ∧ isSummaryOf s.segments s.currentSegmentIdx line = true ∧
      line.blocksCounted = s.totalBlocksCounted := by
  unfold state.print isSummaryOf
  rw [hcur]
  simp only
  split_ifs with h1 h2
  · exact ⟨_, rfl, by simp [Summary.start, Summary.endBlock], by simp [Summary.blocksCounted, h1]⟩
  · exact ⟨_, rfl, by simp [Summary.start, Summary.endBlock], by simp [Summary.blocksCounted]⟩
  · exact ⟨_, rfl, by simp [Summary.start, Summary.endBlock], by simp [Summary.blocksCounted]⟩

theorem segmentOf_eq {segs : List BlockRange} (hseg : contiguous segs = true)
    {j b : Nat} {seg : BlockRange} (hj : segs[j]? = some seg) (hin : seg.Contains b = true) :
    segmentOf segs b = j := by
  obtain ⟨hlt, hget⟩ := List.getElem?_eq_some_iff.1 hj
  unfold segmentOf
  rw [List.findIdx_eq hlt]
  refine ⟨by rw [hget]; exact hin, fun i hi => ?_⟩
  cases hc : (segs[i]).Contains b
  · rfl
  · have hi2 : segs[i]? = some segs[i] := List.getElem?_eq_getElem _
    have := contiguous_unique hseg hi2 hj hc hin
    omega

theorem count_inSeg (s : state) (d m : Bool) :
    (s.count d m).blocksCountedInThisSegment = s.blocksCountedInThisSegment := by
  unfold state.count; split_ifs <;> rfl

/-- The lines of a run from a state whose index is in range and at or before the segment
of every record to come, over a contiguous segment list and a strictly increasing stream
of records that each lie in some segment: one line per expected flush, each the line of
the segment expected, the flushed segments strictly increasing, and each line reporting
the number of records processed so far. -/
theorem runFrom_spec (segs : List BlockRange) (hseg : contiguous segs = true) :
    ∀ (stream : List (Nat × Bool × Bool)) (s : state),
      s.segments = segs → s.currentSegmentIdx < segs.length →
      s.blocksCountedInThisSegment = 0 →
      (stream.map Prod.fst).Pairwise (· < ·) →
      (∀ b ∈ stream.map Prod.fst, ∃ seg ∈ segs, seg.Contains b = true) →
      (∀ b ∈ stream.map Prod.fst, ∀ j seg, segs[j]? = some seg → seg.Contains b = true →
        s.currentSegmentIdx ≤ j) →
      ∃ lines, state.runFrom s stream = some lines ∧
        lines.length = crossingRecords segs s.currentSegmentIdx (stream.map Prod.fst) + 1 ∧
        List.Forall₂ (fun i line => isSummaryOf segs i line = true)
          (flushedSegments segs s.currentSegmentIdx (stream.map Prod.fst)) lines ∧
        (flushedSegments segs s.currentSegmentIdx (stream.map Prod.fst)).Pairwise (· < ·) ∧
        (∀ i ∈ flushedSegments segs s.currentSegmentIdx (stream.map Prod.fst),
          s.currentSegmentIdx ≤ i) ∧
        lines.map Summary.blocksCounted
          = cumulativeCounts segs s.currentSegmentIdx s.totalBlocksCounted
              (stream.map Prod.fst) := by
  intro stream
  induction stream with
  | nil =>
    intro s hs hidx _ _ _ _
    have hcur : s.segments[s.currentSegmentIdx]? = some (segs[s.currentSegmentIdx]) := by
      subst hs; exact List.getElem?_eq_getElem _
    obtain ⟨line, hline, hsum, hcnt⟩ := print_spec s _ hcur
    refine ⟨[line], by rw [runFrom_nil, hline]; rfl, by simp [crossingRecords], ?_, ?_, ?_, ?_⟩
    · simp only [List.map_nil, flushedSegments]
      exact List.Forall₂.cons (by rw [← hs]; exact hsum) List.Forall₂.nil
    · simp [flushedSegments]
    · simp [flushedSegments]
    · simp [cumulativeCounts, hcnt]
  | cons x rest ih =>
    obtain ⟨b, d, m⟩ := x
    intro s hs hidx hzero hinc hin hlow
    have hcur : s.segments[s.currentSegmentIdx]? = some (segs[s.currentSegmentIdx]) := by
      subst hs; exact List.getElem?_eq_getElem _
    have hcur2 : segs[s.currentSegmentIdx]? = some (segs[s.currentSegmentIdx]) :=
      List.getElem?_eq_getElem _
    simp only [List.map_cons, List.pairwise_cons] at hinc
    obtain ⟨hbrest, hincrest⟩ := hinc
    have hinrest : ∀ b ∈ rest.map Prod.fst, ∃ seg ∈ segs, seg.Contains b = true :=
      fun y hy => hin y (by simp only [List.map_cons]; exact List.mem_cons_of_mem _ hy)
    obtain ⟨seg, hsegmem, hsegin⟩ := hin b (by simp)
    obtain ⟨j, hjget⟩ := List.getElem?_of_mem hsegmem
    have hjlow : s.currentSegmentIdx ≤ j := hlow b (by simp) j seg hjget hsegin
    have hjlt : j < segs.length := (List.getElem?_eq_some_iff.1 hjget).1
    -- the records to come lie at or after segment `j`
    have hlowj : ∀ y ∈ rest.map Prod.fst, ∀ i sg, segs[i]? = some sg → sg.Contains y = true →
        j ≤ i := by
      intro y hy i sg hi hyin
      by_contra hlt
      obtain ⟨e, he, hle⟩ := contiguous_ordered hseg (Nat.lt_of_not_le hlt) hi hjget
      have h1 := Contains_lt_stop hyin he
      have h2 := Contains_start_le hsegin
      have h3 := hbrest y hy
      omega
    cases hc : (segs[s.currentSegmentIdx]).Contains b with
    | true =>
      have hjeq : j = s.currentSegmentIdx := contiguous_unique hseg hjget hcur2 hsegin hc
      have hproc := process_inside (s := s) d m hcur hc
      obtain ⟨lines, hrun, hlen, hall, hpw, hge, hcnt⟩ := ih (s.count d m)
        (by rw [count_segments]; exact hs) (by rw [count_idx]; exact hidx)
        (by rw [count_inSeg]; exact hzero) hincrest hinrest
        (by rw [count_idx, ← hjeq]; exact hlowj)
      have hins : inSegment segs s.currentSegmentIdx b = true := by
        unfold inSegment; rw [hcur2]; exact hc
      rw [count_idx] at hlen hall hpw hge hcnt
      rw [count_total] at hcnt
      refine ⟨lines, ?_, ?_, ?_, ?_, ?_, ?_⟩
      · rw [runFrom_cons, hproc]; simp [hrun]
      · simp only [List.map_cons, crossingRecords, hins, if_true]; exact hlen
      · simp only [List.map_cons, flushedSegments, hins, if_true]; exact hall
      · simp only [List.map_cons, flushedSegments, hins, if_true]; exact hpw
      · simp only [List.map_cons, flushedSegments, hins, if_true]; exact hge
      · simp only [List.map_cons, cumulativeCounts, hins, if_true]; exact hcnt
    | false =>
      have hjne : j ≠ s.currentSegmentIdx := by
        rintro rfl
        rw [hcur2] at hjget
        cases hjget
        rw [hc] at hsegin
        cases hsegin
      obtain ⟨line, hline, hproc⟩ := process_outside (s := s) d m (by rw [hs]; exact hseg)
        hcur hc hjlow (by rw [hs]; exact hjget) hsegin
      obtain ⟨line2, hline2, hsum, hcnt0⟩ := print_spec s _ hcur
      rw [hline] at hline2
      cases hline2
      have hsego : segmentOf segs b = j := segmentOf_eq hseg hjget hsegin
      have hins : inSegment segs s.currentSegmentIdx b = false := by
        unfold inSegment; rw [hcur2]; exact hc
      obtain ⟨lines, hrun, hlen, hall, hpw, hge, hcnt⟩ := ih ((s.moveTo j).count d m)
        (by rw [count_segments]; exact hs) (by rw [count_idx]; exact hjlt)
        (by rw [count_inSeg]; rfl) hincrest hinrest
        (by rw [count_idx]; exact hlowj)
      rw [count_idx] at hlen hall hpw hge hcnt
      rw [count_total] at hcnt
      have hidxj : (s.moveTo j).currentSegmentIdx = j := rfl
      have htot : (s.moveTo j).totalBlocksCounted = s.totalBlocksCounted := by
        simp [state.moveTo, hzero]
      rw [hidxj] at hlen hall hpw hge hcnt
      rw [htot] at hcnt
      refine ⟨line :: lines, ?_, ?_, ?_, ?_, ?_, ?_⟩
      · rw [runFrom_cons, hproc]; simp [hrun]
      · simp only [List.map_cons, crossingRecords, hins, hsego, List.length_cons]
        simp [hlen]
      · simp only [List.map_cons, flushedSegments, hins, hsego]
        exact List.Forall₂.cons (by rw [← hs]; exact hsum) hall
      · simp only [List.map_cons, flushedSegments, hins, hsego]
        refine List.Pairwise.cons (fun i hi => ?_) hpw
        have := hge i hi
        omega
      · simp only [List.map_cons, flushedSegments, hins, hsego]
        intro i hi
        rcases List.mem_cons.1 hi with rfl | hi
        · exact le_refl _
        · exact le_trans hjlow (hge i hi)
      · simp only [List.map_cons, cumulativeCounts, hins, hsego]
        simp [hcnt, hcnt0]

/-! ## The run over the block numbers `0 .. 249999` -/

theorem crossingRecords_inside (segs : List BlockRange) (cur : Nat) (l rest : List Nat)
    (h : ∀ b ∈ l, inSegment segs cur b = true) :
    crossingRecords segs cur (l ++ rest) = crossingRecords segs cur rest := by
  induction l with
  | nil => rfl
  | cons b l ih =>
    simp only [List.cons_append, crossingRecords, h b (List.mem_cons_self _ _), if_true]
    exact ih (fun y hy => h y (List.mem_cons_of_mem _ hy))

theorem flushedSegments_inside (segs : List BlockRange) (cur : Nat) (l rest : List Nat)
    (h : ∀ b ∈ l, inSegment segs cur b = true) :
    flushedSegments segs cur (l ++ rest) = flushedSegments segs cur rest := by
  induction l with
  | nil => rfl
  | cons b l ih =>
    simp only [List.cons_append, flushedSegments, h b (List.mem_cons_self _ _), if_true]
    exact ih (fun y hy => h y (List.mem_cons_of_mem _ hy))

theorem cumulativeCounts_inside (segs : List BlockRange) (cur n : Nat) (l rest : List Nat)
    (h : ∀ b ∈ l, inSegment segs cur b = true) :
    cumulativeCounts segs cur n (l ++ rest) = cumulativeCounts segs cur (n + l.length) rest := by
  induction l generalizing n with
  | nil => rfl
  | cons b l ih =>
    simp only [List.cons_append, cumulativeCounts, h b (List.mem_cons_self _ _), if_true]
    have e := ih (n + 1) (fun y hy => h y (List.mem_cons_of_mem _ hy))
    have e2 : n + 1 + l.length = n + (b :: l).length := by
      simp only [List.length_cons]; omega
    rw [e2] at e
    exact e

theorem crossingRecords_outside (segs : List BlockRange) (cur b : Nat) (rest : List Nat)
    (h : inSegment segs cur b = false) :
    crossingRecords segs cur (b :: rest)
      = crossingRecords segs (segmentOf segs b) rest + 1 := by
  simp [crossingRecords, h]

theorem flushedSegments_outside (segs : List BlockRange) (cur b : Nat) (rest : List Nat)
    (h : inSegment segs cur b = false) :
    flushedSegments segs cur (b :: rest)
      = cur :: flushedSegments segs (segmentOf segs b) rest := by
  simp [flushedSegments, h]

theorem cumulativeCounts_outside (segs : List BlockRange) (cur n b : Nat) (rest : List Nat)
    (h : inSegment segs cur b = false) :
    cumulativeCounts segs cur n (b :: rest)
      = n :: cumulativeCounts segs (segmentOf segs b) (n + 1) rest := by
  simp [cumulativeCounts, h]

theorem map_fst_stream (l : List Nat) :
    (l.map (fun b => ((b, false, false) : Nat × Bool × Bool))).map Prod.fst = l := by
  induction l with
  | nil => rfl
  | cons b l ih => simp only [List.map_cons, ih]

/-- The block numbers `0 .. 249999`, cut where the segments of `segments250k` begin. -/
theorem range250k_split :
    List.range' 0 250000
      = List.range' 0 100000 ++ (100000 :: (List.range' 100001 99999
          ++ (200000 :: (List.range' 200001 49999 ++ [])))) := by
  have h1 : List.range' 0 250000 = List.range' 0 100000 ++ List.range' 100000 150000 :=
    (List.range'_append_1 0 100000 150000).symm
  have h2 : List.range' 100000 150000 = 100000 :: List.range' 100001 149999 :=
    List.range'_succ 100000 149999 1
  have h3 : List.range' 100001 149999
      = List.range' 100001 99999 ++ List.range' 200000 50000 :=
    (List.range'_append_1 100001 99999 50000).symm
  have h4 : List.range' 200000 50000 = 200000 :: List.range' 200001 49999 :=
    List.range'_succ 200000 49999 1
  rw [h1, h2, h3, h4, List.append_nil]

theorem inside250k_0 : ∀ b ∈ List.range' 0 100000, inSegment segments250k 0 b = true := by
  intro b hb
  rw [List.mem_range'_1] at hb
  simp only [inSegment, segments250k, List.getElem?_cons_zero, BlockRange.Contains]
  simp only [Bool.and_eq_true, decide_eq_true_eq]
  omega

theorem inside250k_1 : ∀ b ∈ List.range' 100001 99999, inSegment segments250k 1 b = true := by
  intro b hb
  rw [List.mem_range'_1] at hb
  simp only [inSegment, segments250k, List.getElem?_cons_succ, List.getElem?_cons_zero,
    BlockRange.Contains]
  simp only [Bool.and_eq_true, decide_eq_true_eq]
  omega

theorem inside250k_2 : ∀ b ∈ List.range' 200001 49999, inSegment segments250k 2 b = true := by
  intro b hb
  rw [List.mem_range'_1] at hb
  simp only [inSegment, segments250k, List.getElem?_cons_succ, List.getElem?_cons_zero,
    BlockRange.Contains]
  simp only [Bool.and_eq_true, decide_eq_true_eq]
  omega

theorem crossingRecords_250k :
    crossingRecords segments250k 0 (List.range' 0 250000) = 2 := by
  have a1 : inSegment segments250k 0 100000 = false := by decide
  have a2 : segmentOf segments250k 100000 = 1 := by decide
  have b1 : inSegment segments250k 1 200000 = false := by decide
  have b2 : segmentOf segments250k 200000 = 2 := by decide
  rw [range250k_split, crossingRecords_inside _ _ _ _ inside250k_0,
    crossingRecords_outside _ _ _ _ a1, a2, crossingRecords_inside _ _ _ _ inside250k_1,
    crossingRecords_outside _ _ _ _ b1, b2, crossingRecords_inside _ _ _ _ inside250k_2]
  rfl

theorem flushedSegments_250k :
    flushedSegments segments250k 0 (List.range' 0 250000) = [0, 1, 2] := by
  have a1 : inSegment segments250k 0 100000 = false := by decide
  have a2 : segmentOf segments250k 100000 = 1 := by decide
  have b1 : inSegment segments250k 1 200000 = false := by decide
  have b2 : segmentOf segments250k 200000 = 2 := by decide
  rw [range250k_split, flushedSegments_inside _ _ _ _ inside250k_0,
    flushedSegments_outside _ _ _ _ a1, a2, flushedSegments_inside _ _ _ _ inside250k_1,
    flushedSegments_outside _ _ _ _ b1, b2, flushedSegments_inside _ _ _ _ inside250k_2]
  rfl

theorem cumulativeCounts_250k :
    cumulativeCounts segments250k 0 0 (List.range' 0 250000) = [100000, 200000, 250000] := by
  have a1 : inSegment segments250k 0 100000 = false := by decide
  have a2 : segmentOf segments250k 100000 = 1 := by decide
  have b1 : inSegment segments250k 1 200000 = false := by decide
  have b2 : segmentOf segments250k 200000 = 2 := by decide
  rw [range250k_split, cumulativeCounts_inside _ _ _ _ _ inside250k_0,
    cumulativeCounts_outside _ _ _ _ _ a1, a2, cumulativeCounts_inside _ _ _ _ _ inside250k_1,
    cumulativeCounts_outside _ _ _ _ _ b1, b2, cumulativeCounts_inside _ _ _ _ _ inside250k_2]
  simp only [List.length_range']
  rfl

theorem stream250k_in_segments :
    ∀ b ∈ List.range' 0 250000, ∃ seg ∈ segments250k, seg.Contains b = true := by
  intro b hb
  rw [List.mem_range'_1] at hb
  by_cases h1 : b < 100000
  · exact ⟨⟨0, some 100000⟩, by simp [segments250k], by simp [BlockRange.Contains, h1]⟩
  · by_cases h2 : b < 200000
    · exact ⟨⟨100000, some 200000⟩, by simp [segments250k],
        by simp only [BlockRange.Contains, Bool.and_eq_true, decide_eq_true_eq]; omega⟩
    · exact ⟨⟨200000, some 250000⟩, by simp [segments250k],
        by simp only [BlockRange.Contains, Bool.and_eq_true, decide_eq_true_eq]; omega⟩

/-- C9: over a non-empty, contiguous, non-overlapping segment list, a whole run (from
segment 0, the final flush included) on a strictly increasing stream of block numbers
that each lie in some segment returns with exactly one line per record that fell outside
the segment current when it arrived, plus one; the k-th line is the line of the k-th
flushed segment, and the flushed segments are strictly increasing, so no segment is
flushed twice. -/
theorem run_flushes_once_per_crossing (segments : List BlockRange)
    (stream : List (Nat × Bool × Bool))
    (hne : segments ≠ [])
    (hseg : contiguous segments = true)
    (hinc : (stream.map Prod.fst).Pairwise (· < ·))
    (hin : ∀ b ∈ stream.map Prod.fst, ∃ seg ∈ segments, seg.Contains b = true) :
    ∃ lines : List Summary,
      state.run segments stream = some lines ∧
      lines.length = crossingRecords segments 0 (stream.map Prod.fst) + 1 ∧
      List.Forall₂ (fun i line => isSummaryOf segments i line = true)
        (flushedSegments segments 0 (stream.map Prod.fst)) lines ∧
      (flushedSegments segments 0 (stream.map Prod.fst)).Pairwise (· < ·) := by
  obtain ⟨lines, hrun, hlen, hall, hpw, _, _⟩ :=
    runFrom_spec segments hseg stream (state.init segments) rfl
      (List.length_pos.2 hne) rfl hinc hin (fun _ _ _ _ _ _ => Nat.zero_le _)
  exact ⟨lines, hrun, hlen, hall, hpw⟩

/-- C9 on the block numbers `0 .. 249999` over segments of size 100000 covering
`[0, 250000)`: two records fall outside the current segment, three lines are written,
for the segments 0, 1 and 2. -/
theorem run_flushes_once_per_crossing_witness :
    (∃ lines : List Summary,
      state.run segments250k stream250k = some lines ∧
      lines.length = crossingRecords segments250k 0 (stream250k.map Prod.fst) + 1 ∧
      List.Forall₂ (fun i line => isSummaryOf segments250k i line = true)
        (flushedSegments segments250k 0 (stream250k.map Prod.fst)) lines ∧
      (flushedSegments segments250k 0 (stream250k.map Prod.fst)).Pairwise (· < ·)) ∧
    crossingRecords segments250k 0 (stream250k.map Prod.fst) + 1 = 3 ∧
    flushedSegments segments250k 0 (stream250k.map Prod.fst) = [0, 1, 2] :=
  ⟨run_flushes_once_per_crossing segments250k stream250k (by decide) (by decide)
      (by
        unfold stream250k
        rw [map_fst_stream]
        exact List.pairwise_lt_range' 0 250000)
      (by
        unfold stream250k
        rw [map_fst_stream]
        exact stream250k_in_segments),
    by
      unfold stream250k
      rw [map_fst_stream, crossingRecords_250k],
    by
      unfold stream250k
      rw [map_fst_stream, flushedSegments_250k]⟩

/-- C2 (the code on the failing input): on the block numbers `0 .. 249999` over the
segments `[0, 100000)`, `[100000, 200000)`, `[200000, 250000)` the three flushes report
100000, 200000 and 250000 blocks counted, the number of records processed so far in the
whole run and not in the segment flushed; the reported counts sum to 550000. -/
theorem run_250k_reported_counts :
    ∃ lines : List Summary,
      state.run segments250k stream250k = some lines ∧
      lines.map Summary.blocksCounted = [100000, 200000, 250000] ∧
      (lines.map Summary.blocksCounted).sum = 550000 := by
  obtain ⟨lines, hrun, _, _, _, _, hcnt⟩ :=
    runFrom_spec segments250k (by decide) stream250k (state.init segments250k) rfl
      (by decide) rfl
      (by
        unfold stream250k
        rw [map_fst_stream]
        exact List.pairwise_lt_range' 0 250000)
      (by
        unfold stream250k
        rw [map_fst_stream]
        exact stream250k_in_segments)
      (fun _ _ _ _ _ _ => Nat.zero_le _)
  have hc : lines.map Summary.blocksCounted = [100000, 200000, 250000] := by
    rw [hcnt]
    unfold stream250k
    rw [map_fst_stream]
    exact cumulativeCounts_250k
  exact ⟨lines, hrun, hc, by rw [hc]; rfl⟩

/-! ## The bundle reader -/

theorem BlockMap.mem_keys_set {K : Type} (m : BlockMap K) (id : String) (b : Block K)
    (x : String) : x ∈ (m.set id b).keys ↔ x = id ∨ x ∈ m.keys := by
  induction m with
  | nil => simp [BlockMap.set, BlockMap.keys]
  | cons e t ih =>
    obtain ⟨k, v⟩ := e
    unfold BlockMap.set
    by_cases h : k = id
    · subst h
      simp [BlockMap.keys]
    · simp only [h, if_false]
      simp only [BlockMap.keys, List.map_cons, List.mem_cons] at ih ⊢
      rw [ih]
      tauto

theorem BlockMap.get_set {K : Type} (m : BlockMap K) (id : String) (b : Block K)
    (x : String) : (m.set id b).get x = if x = id then some b else m.get x := by
  induction m with
  | nil =>
    by_cases h : x = id
    · simp [BlockMap.set, BlockMap.get, h]
    · have h2 : ¬ id = x := fun e => h e.symm
      simp [BlockMap.set, BlockMap.get, h, h2]
  | cons e t ih =>
    obtain ⟨k, v⟩ := e
    unfold BlockMap.set
    by_cases hk : k = id
    · subst hk
      by_cases hx : x = k
      · subst hx; simp [BlockMap.get]
      · have h2 : ¬ k = x := fun e => hx e.symm
        simp [BlockMap.get, hx, h2]
    · simp only [hk, if_false]
      by_cases hx : k = x
      · subst hx
        simp [BlockMap.get, hk]
      · have e1 : BlockMap.get ((k, v) :: BlockMap.set t id b) x
            = BlockMap.get (BlockMap.set t id b) x := by
          simp [BlockMap.get, hx]
        have e2 : BlockMap.get ((k, v) :: t) x = BlockMap.get t x := by
          simp [BlockMap.get, hx]
        rw [e1, e2, ih]

/-- The loop of `readBundle` on a stream without read error, from any loop state. -/
theorem readLoop_spec {K : Type} (fileStartBlock stopBlock : Nat)
    (sanitizer : Block K → Block K) (blocks : List (StreamBlock K)) :
    ∀ st : ReadState K, ∃ st1 : ReadState K,
      readLoop fileStartBlock stopBlock sanitizer (blocks.map Except.ok) st = .ok st1 ∧
      st1.blockHashes = st.blockHashes
        ++ (retainedRecords fileStartBlock stopBlock blocks).map StreamBlock.Id ∧
      (∀ id, id ∈ st1.blocksMap.keys ↔ id ∈ st.blocksMap.keys ∨
        id ∈ (retainedRecords fileStartBlock stopBlock blocks).map StreamBlock.Id) ∧
      (∀ id b, st1.blocksMap.get id = some b → st.blocksMap.get id = some b ∨
        ∃ r ∈ retainedRecords fileStartBlock stopBlock blocks,
          r.Id = id ∧ r.Payload.map sanitizer = some b) := by
  induction blocks with
  | nil =>
    intro st
    exact ⟨st, rfl, by simp [retainedRecords, scannedRecords],
      by simp [retainedRecords, scannedRecords], fun _ _ h => Or.inl h⟩
  | cons r rest ih =>
    intro st
    simp only [List.map_cons, readLoop]
    by_cases hstop : r.Number ≥ stopBlock
    · have hs : scannedRecords fileStartBlock stopBlock (r :: rest) = [] := by
        simp [scannedRecords, List.takeWhile_cons, Nat.not_lt.2 hstop]
      simp only [hstop, if_true]
      exact ⟨st, rfl, by simp [retainedRecords, hs], by simp [retainedRecords, hs],
        fun _ _ h => Or.inl h⟩
    · simp only [hstop, if_false]
      have hlt : r.Number < stopBlock := Nat.lt_of_not_le hstop
      by_cases hstart : r.Number < fileStartBlock
      · simp only [hstart, if_true]
        have hr : retainedRecords fileStartBlock stopBlock (r :: rest)
            = retainedRecords fileStartBlock stopBlock rest := by
          simp [retainedRecords, scannedRecords, List.takeWhile_cons, hlt, hstart,
            List.filter_cons, Nat.not_le.2 hstart]
        rw [hr]
        exact ih _
      · simp only [hstart, if_false]
        cases hp : r.Payload with
        | none =>
          have hs : scannedRecords fileStartBlock stopBlock (r :: rest) = [] := by
            simp [scannedRecords, List.takeWhile_cons, hstart, hp]
          exact ⟨_, rfl, by simp [retainedRecords, hs], by simp [retainedRecords, hs],
            fun _ _ h => Or.inl h⟩
        | some b =>
          have hr : retainedRecords fileStartBlock stopBlock (r :: rest)
              = r :: retainedRecords fileStartBlock stopBlock rest := by
            simp [retainedRecords, scannedRecords, List.takeWhile_cons, hlt, hstart, hp,
              List.filter_cons, Nat.le_of_not_lt hstart]
          obtain ⟨st1, hrun, hh, hk, hv⟩ := ih
            { st with
              blockHashes := st.blockHashes ++ [r.Id]
              blocksMap := st.blocksMap.set r.Id (sanitizer b) }
          refine ⟨st1, hrun, ?_, ?_, ?_⟩
          · rw [hh, hr]; simp
          · intro id
            rw [hk id, hr, BlockMap.mem_keys_set]
            simp only [List.map_cons, List.mem_cons]
            tauto
          · intro id v hget
            rcases hv id v hget with h | ⟨r2, hr2, hid, hpl⟩
            · rw [BlockMap.get_set] at h
              by_cases hid : id = r.Id
              · right
                simp only [hid, if_true] at h
                exact ⟨r, by rw [hr]; exact List.mem_cons_self _ _, hid.symm, by
                  rw [hp]; exact h⟩
              · left
                simpa [hid] using h
            · right
              exact ⟨r2, by rw [hr]; exact List.mem_cons_of_mem _ hr2, hid, hpl⟩

/-- C8: on a stream read without read error `readBundle` returns; the ids it returns
are, in stream order, those of the records numbered at least `fileStartBlock` among the
records before the first one whose number reaches `stopBlock` and before the first one at
or after `fileStartBlock` that fails to unmarshal; the keys of the map it returns are
the ids it returns, and every value of the map is the sanitized payload of such a record
with that id, so a record numbered below `fileStartBlock` is in neither. -/
theorem readBundle_spec {K : Type} (fileStartBlock stopBlock : Nat)
    (sanitizer : Block K → Block K) (warned : Bool) (blocks : List (StreamBlock K)) :
    ∃ st : ReadState K,
      readBundle (.reader (blocks.map Except.ok)) fileStartBlock stopBlock sanitizer warned
        = .ok st ∧
      st.blockHashes
        = (retainedRecords fileStartBlock stopBlock blocks).map StreamBlock.Id ∧
      (∀ id, id ∈ st.blocksMap.keys ↔ id ∈ st.blockHashes) ∧
      (∀ id b, st.blocksMap.get id = some b →
        ∃ r ∈ retainedRecords fileStartBlock stopBlock blocks,
          r.Id = id ∧ fileStartBlock ≤ r.Number ∧ r.Number < stopBlock ∧
          r.Payload.map sanitizer = some b) := by
  obtain ⟨st, hrun, hh, hk, hv⟩ := readLoop_spec fileStartBlock stopBlock sanitizer blocks
    { blockHashes := [], blocksMap := [], warned := warned, log := [] }
  refine ⟨st, hrun, by simpa using hh, ?_, ?_⟩
  · intro id
    rw [hk id, hh]
    simp [BlockMap.keys]
  · intro id b hget
    rcases hv id b hget with h | ⟨r, hr, hid, hpl⟩
    · simp [BlockMap.get] at h
    · refine ⟨r, hr, hid, ?_, ?_, hpl⟩
      · have := (List.mem_filter.1 hr).2
        simpa using this
      · have hmem := (List.mem_filter.1 hr).1
        have := List.mem_takeWhile_imp hmem
        simp only [Bool.and_eq_true, decide_eq_true_eq] at this
        exact this.1

/-- C8 on a bundle whose file starts at block 100 and which holds a record numbered 50:
that record is in neither the ids nor the map, and the warning is written once. -/
theorem readBundle_spec_witness :
    (∃ st : ReadState Nat,
      readBundle (.reader (strayBundle.map Except.ok)) 100 200 id false = .ok st ∧
      st.blockHashes = (retainedRecords 100 200 strayBundle).map StreamBlock.Id ∧
      (∀ id, id ∈ st.blocksMap.keys ↔ id ∈ st.blockHashes) ∧
      (∀ i b, st.blocksMap.get i = some b →
        ∃ r ∈ retainedRecords 100 200 strayBundle,
          r.Id = i ∧ 100 ≤ r.Number ∧ r.Number < 200 ∧ r.Payload.map id = some b)) ∧
    (readBundle (.reader (strayBundle.map Except.ok)) 100 200 id false).toOption.map
        (fun st => (st.blockHashes, st.blocksMap.keys, st.log))
      = some (["a", "b"], ["a", "b"], [.warnExtraBlocks 50]) :=
  ⟨readBundle_spec 100 200 id false strayBundle, by decide⟩

/-! ## The record comparator -/

theorem equalUnknown_self (x : RawFields) : equalUnknown x x = true := by
  simp [equalUnknown]

/-- Clearing the unknown fields of both arguments beforehand does not change what
`Compare` returns with `ignoreUnknown`. -/
theorem CompareMessages_strip {K J : Type} [DecidableEq K] (lib : JsonLib K J)
    (a b : Nat) (k k2 : K) (x y : RawFields) :
    CompareMessages lib (.valid a k []) (.valid b k2 []) true
      = CompareMessages lib (.valid a k x) (.valid b k2 y) true := by
  simp [CompareMessages]

/-- Two valid records that agree on all known field values, the unknown fields of nested
messages included, compare equal with an empty differences list when unknown fields are
ignored, whatever their top-level unknown-fields bags. -/
theorem Compare_ignoreUnknown_top_level {K J : Type} [DecidableEq K] (lib : JsonLib K J)
    (a b : Nat) (k : K) (x y : RawFields) :
    Compare lib (some (.valid a k x)) (some (.valid b k y)) true = some (true, []) := by
  simp only [Compare, CompareMessages]
  split_ifs
  · rfl
  · simp [compareTail, protoEqual, equalUnknown_self]

/-- C5 (the code on the failing input): reference block `lib_num 7`, `timestamp` with
`seconds 1` and the unknown field 99 (bytes `98 06 01`) inside the timestamp; current
block `lib_num 7`, `timestamp` with `seconds 1`; unknown fields ignored.  The known
fields are all equal and the two records differ in an unknown-fields bag only, yet
`Compare` returns `isEqual = false` with an empty differences list: it clears the
top-level bags only, `proto.Equal` still compares the bag of the nested message, and the
JSON documents of the two records are the same.  When the two records differ in their
top-level bags only, `Compare` returns equal with no difference. -/
theorem Compare_ignoreUnknown_nested {K J : Type} [DecidableEq K] (lib : JsonLib K J)
    (a b : Nat) (k : K) (x y : RawFields) :
    Compare timestampedJson
        (some (.valid 1 ⟨7, 1, [(99, [0x98, 0x06, 0x01])]⟩ []))
        (some (.valid 2 ⟨7, 1, []⟩ [])) true
      = some (false, []) ∧
    timestampedJson.MarshalIndent ⟨7, 1, [(99, [0x98, 0x06, 0x01])]⟩
      = timestampedJson.MarshalIndent ⟨7, 1, []⟩ ∧
    Compare lib (some (.valid a k x)) (some (.valid b k y)) true = some (true, []) :=
  ⟨by decide, rfl, Compare_ignoreUnknown_top_level lib a b k x y⟩

/-- C7: with unknown fields included, a decoded record compares equal, with no
difference, to itself (the same pointer, `a = b`) and to a structurally identical copy
of itself (another pointer, `a ≠ b`); so does the nil pointer, and the nil interface. -/
theorem Compare_reflexive {K J : Type} [DecidableEq K] (lib : JsonLib K J) :
    (∀ (a b : Nat) (k : K) (x : RawFields),
      Compare lib (some (.valid a k x)) (some (.valid b k x)) false = some (true, [])) ∧
    Compare lib (some .invalid) (some .invalid) false = some (true, []) ∧
    Compare lib none none false = some (true, []) := by
  refine ⟨fun a b k x => ?_, rfl, rfl⟩
  simp only [Compare, CompareMessages]
  by_cases hab : a = b
  · simp [hab]
  · simp [hab, compareTail, protoEqual, equalUnknown_self]

theorem FieldMap.get_of_mem (my : List (Nat × List Nat)) (e : Nat × List Nat) (h : e ∈ my) :
    ∃ v, FieldMap.get my e.1 = some v := by
  unfold FieldMap.get
  cases hf : my.find? (fun x => decide (x.1 = e.1)) with
  | none =>
    have := List.find?_eq_none.1 hf e h
    simp at this
  | some x => exact ⟨x.2, rfl⟩

theorem currentSide_foldl (my l : List (Nat × List Nat)) (acc : List String)
    (h : ∀ e ∈ l, e ∈ my) :
    l.foldl (fun acc e =>
      match FieldMap.get my e.1 with
      | none => acc ++ [fmtCurrentOnly e.1 []]
      | some _ => acc) acc = acc := by
  induction l generalizing acc with
  | nil => rfl
  | cons e t ih =>
    obtain ⟨v, hv⟩ := FieldMap.get_of_mem my e (h e (List.mem_cons_self _ _))
    simp only [List.foldl_cons, hv]
    exact ih acc (fun x hx => h x (List.mem_cons_of_mem _ hx))

/-- C4 (the code on the failing input): two valid records with the same known fields,
the current one with the unknown field number 99 (bytes `98 06 01`) that the reference
one lacks, unknown fields included: `Compare` returns not equal with an empty
differences list, without the line `current block contains unknown protobuf field number
99 ...`.  With the field on the reference side only it returns the one line naming 99.
Whatever the two maps, the loop over the current map appends nothing. -/
theorem Compare_unknown_on_current_only :
    Compare numberJson (some (.valid 1 7 [])) (some (.valid 2 7 [(99, [0x98, 0x06, 0x01])]))
        false = some (false, []) ∧
    Compare numberJson (some (.valid 1 7 [(99, [0x98, 0x06, 0x01])])) (some (.valid 2 7 []))
        false = some (false, [fmtReferenceOnly 99 [0x98, 0x06, 0x01]]) ∧
    fmtReferenceOnly 99 [0x98, 0x06, 0x01]
      = "reference block contains unknown protobuf field number 99 (980601), but current block does not" ∧
    ∀ (my : List (Nat × List Nat)) (differences : List String),
      currentSideDifferences my differences = differences :=
  ⟨by decide, by decide, by decide,
    fun my differences => currentSide_foldl my my differences (fun _ h => h)⟩

theorem compareTail_not_true_cons {K J : Type} [DecidableEq K] (lib : JsonLib K J)
    (r c : Message K) (k k2 : K) (differences : List String) (d : String) (ds : List String) :
    compareTail lib r c k k2 differences ≠ some (true, d :: ds) := by
  unfold compareTail
  split_ifs
  · cases lib.MarshalIndent k <;> cases lib.MarshalIndent k2 <;> simp
    rename_i s1 s2
    cases lib.ReadJsonString s1 <;> cases lib.ReadJsonString s2 <;> simp
  · simp

/-- C6 (the code on the failing input): two valid records with the same known fields and
the same unknown field 3, the current one with the unknown field 7 in addition, unknown
fields included: `Compare` returns `isEqual = false` together with an empty differences
list.  The other half of the claim holds on the code: `Compare` never returns
`isEqual = true` together with a non-empty differences list. -/
theorem Compare_unequal_without_difference {K J : Type} [DecidableEq K] (lib : JsonLib K J)
    (reference current : Option (Message K)) (ignoreUnknown : Bool)
    (d : String) (ds : List String) :
    Compare numberJson (some (.valid 1 7 [(3, [0x18, 0x05])]))
        (some (.valid 2 7 [(3, [0x18, 0x05]), (7, [0x38, 0x01])])) false
      = some (false, []) ∧
    Compare lib reference current ignoreUnknown ≠ some (true, d :: ds) := by
  refine ⟨by decide, ?_⟩
  unfold Compare
  cases reference with
  | none => cases current <;> simp
  | some r =>
    cases current with
    | none => simp
    | some c =>
      simp only
      unfold CompareMessages
      cases r with
      | invalid => cases c <;> simp
      | valid a k x =>
        cases c with
        | invalid => simp
        | valid b k2 y =>
          simp only
          split_ifs
          · simp
          all_goals exact compareTail_not_true_cons lib _ _ _ _ _ _ _

end CompareBlocks
